import Mathlib

/-!
Shallow embedding of the Missionaries-and-Cannibals search core of the
River-Crossing-Backend repository.

Sources embedded:
* `src/missionary_cannibal_a_star.py` — legality checker, successor
  generator, heuristic, A* search, solver/formatter.
* `src/app.py` — the strategy-dispatch skeleton of the
  `/missionary-cannibal` HTTP handler.

Python machine-level notes reflected in the model:
* Python integers are unbounded, so counts are `Int`.
* Python states are 5-tuples `(M_left, C_left, M_right, C_right, boat)`
  with `'left' < 'right'` in string order; the boat side is modelled by
  the two-valued `Boat` with `boatRank` giving that order.
* `heapq` is a binary min-heap over tuples `(f, g, state)` compared
  lexicographically; its observable behaviour (every pop returns a
  minimal tuple of the current heap) is modelled by a list kept sorted
  by the same lexicographic order, inserting behind equal entries.
* Python dicts keyed by states are modelled by association lists where
  a new binding is consed in front (lookup finds the newest binding).
* The unbounded `while open_heap:` loop is modelled with explicit fuel;
  `none` as the outer result means only "fuel exhausted", a modelling
  artifact that cannot occur for sufficient fuel.
* The event list `events` of `AState` is ghost instrumentation
  recording every heappush/heappop; it is never read by the algorithm.
-/

inductive Boat where
  | left : Boat
  | right : Boat
deriving DecidableEq, Repr

/-- A puzzle state `(M_left, C_left, M_right, C_right, boat_pos)`. -/
abbrev MCState := Int × Int × Int × Int × Boat

instance decEqMCState : DecidableEq MCState := inferInstance

/-- Total missionaries in a state (`M_left + M_right`). -/
def msum (s : MCState) : Int := s.1 + s.2.2.1

/-- Total cannibals in a state (`C_left + C_right`). -/
def csum (s : MCState) : Int := s.2.1 + s.2.2.2.1

/-- `is_valid_state` of `missionary_cannibal_a_star.py` (lines 4-17). -/
def is_valid_state (M_left C_left M_right C_right M_total C_total : Int) : Bool :=
  if M_left < 0 ∨ C_left < 0 ∨ M_right < 0 ∨ C_right < 0 then false
  else if M_left > M_total ∨ C_left > C_total ∨ M_right > M_total ∨ C_right > C_total then false
  else if M_left > 0 ∧ C_left > M_left then false
  else if M_right > 0 ∧ C_right > M_right then false
  else true

/-- `is_valid_state` applied to the four counts of a state tuple. -/
def validState (s : MCState) (M_total C_total : Int) : Bool :=
  is_valid_state s.1 s.2.1 s.2.2.1 s.2.2.2.1 M_total C_total

/-- `get_possible_moves` (lines 19-27): all `(i, j)` with
`0 < i + j ≤ boat_capacity`, in the nested-loop enumeration order.
A non-positive capacity gives `range(boat_capacity+1)` of at most one
element and hence no moves, as in Python. -/
def get_possible_moves (boat_capacity : Int) : List (Nat × Nat) :=
  (List.range (boat_capacity + 1).toNat).flatMap (fun i =>
    ((List.range (boat_capacity + 1).toNat).filter
      (fun j : Nat => decide ((i : Int) + (j : Int) ≤ boat_capacity ∧ 0 < i + j))).map
      (fun j => (i, j)))

/-- `get_next_states` (lines 29-56): apply each possible move from the
boat's bank to the other bank and keep the results accepted by
`is_valid_state`. -/
def get_next_states (state : MCState) (M_total C_total boat_capacity : Int) : List MCState :=
  match state with
  | (M_left, C_left, M_right, C_right, Boat.left) =>
      (get_possible_moves boat_capacity).filterMap (fun m =>
        let new_M_left := M_left - m.1
        let new_C_left := C_left - m.2
        let new_M_right := M_right + m.1
        let new_C_right := C_right + m.2
        if is_valid_state new_M_left new_C_left new_M_right new_C_right M_total C_total then
          some (new_M_left, new_C_left, new_M_right, new_C_right, Boat.right)
        else none)
  | (M_left, C_left, M_right, C_right, Boat.right) =>
      (get_possible_moves boat_capacity).filterMap (fun m =>
        let new_M_left := M_left + m.1
        let new_C_left := C_left + m.2
        let new_M_right := M_right - m.1
        let new_C_right := C_right - m.2
        if is_valid_state new_M_left new_C_left new_M_right new_C_right M_total C_total then
          some (new_M_left, new_C_left, new_M_right, new_C_right, Boat.left)
        else none)

/-- The result of applying move `m = (i, j)` to `state`: the boat's bank
loses `i` missionaries and `j` cannibals, the other bank gains them, and
the boat flips sides.  Spec-side restatement of the arithmetic inlined
in `get_next_states`. -/
def moveResult (state : MCState) (m : Nat × Nat) : MCState :=
  match state with
  | (M_left, C_left, M_right, C_right, Boat.left) =>
      (M_left - m.1, C_left - m.2, M_right + m.1, C_right + m.2, Boat.right)
  | (M_left, C_left, M_right, C_right, Boat.right) =>
      (M_left + m.1, C_left + m.2, M_right - m.1, C_right - m.2, Boat.left)

/-- `heuristic` (lines 58-71): `math.ceil(people_left / 2.0)` where
`people_left = M_left + C_left`.  For an integer `p`,
`ceil(p / 2) = (p + 1) / 2` in euclidean integer division (proved as
part of the claim about the heuristic); `M_total`/`C_total` are
accepted and ignored as in the source. -/
def heuristic (state : MCState) (M_total C_total : Int) : Int :=
  let people_left := state.1 + state.2.1
  (people_left + 1) / 2

/-- A frontier entry `(f, g, state)` as pushed on the Python heap. -/
abbrev Entry := Int × Int × MCState

/-- `'left' < 'right'` in Python string order. -/
def boatRank (b : Boat) : Int :=
  match b with
  | Boat.left => 0
  | Boat.right => 1

/-- Python's lexicographic `<` on state 5-tuples. -/
def stateLt (a b : MCState) : Bool :=
  decide (a.1 < b.1) ||
  (decide (a.1 = b.1) && (decide (a.2.1 < b.2.1) ||
    (decide (a.2.1 = b.2.1) && (decide (a.2.2.1 < b.2.2.1) ||
      (decide (a.2.2.1 = b.2.2.1) && (decide (a.2.2.2.1 < b.2.2.2.1) ||
        (decide (a.2.2.2.1 = b.2.2.2.1) &&
          decide (boatRank a.2.2.2.2 < boatRank b.2.2.2.2))))))))

/-- Python's lexicographic `<` on heap entries `(f, g, state)`. -/
def entryLt (a b : Entry) : Bool :=
  decide (a.1 < b.1) ||
  (decide (a.1 = b.1) && (decide (a.2.1 < b.2.1) ||
    (decide (a.2.1 = b.2.1) && stateLt a.2.2 b.2.2)))

/-- Insert an entry into a heap kept as a list sorted by `entryLt`
(equal entries keep arrival order).  Models `heapq.heappush` together
with `heapq.heappop` returning a minimal tuple. -/
def heapInsert (e : Entry) : List Entry → List Entry
  | [] => [e]
  | x :: xs => if entryLt e x then e :: x :: xs else x :: heapInsert e xs

/-- Ghost record of one heap operation. -/
inductive HeapEvent where
  | push : Entry → HeapEvent
  | pop : Entry → HeapEvent
deriving DecidableEq, Repr

/-- The `f` components of the pop events, in order. -/
def poppedFs (evs : List HeapEvent) : List Int :=
  evs.filterMap (fun ev =>
    match ev with
    | HeapEvent.pop e => some e.1
    | HeapEvent.push _ => none)

/-- First-match lookup in an association list; a Python dict whose
updates cons a fresh binding in front. -/
def lookupA {α β : Type} [DecidableEq α] : List (α × β) → α → Option β
  | [], _ => none
  | (k, v) :: rest, a => if a = k then some v else lookupA rest a

/-- The mutable locals of `astar_search` (lines 85-92):
`open_heap`, `g_cost`, `parent`, `visited`, `num_generated`, plus the
ghost `events` trace. -/
structure AState where
  heap : List Entry
  gCost : List (MCState × Int)
  parent : List (MCState × Option MCState)
  visited : List MCState
  numGenerated : Nat
  events : List HeapEvent
deriving Repr

/-- Path reconstruction (lines 103-108): follow `parent` back-pointers
until the `None` recorded for the start state, building the path in
start-to-goal order.  The fuel bounds the unbounded Python loop; it is
sufficient whenever the parent chain is acyclic. -/
def reconstructPath (parent : List (MCState × Option MCState)) :
    Nat → MCState → Option (List MCState)
  | 0, _ => none
  | fuel + 1, cur =>
      match lookupA parent cur with
      | none => none
      | some none => some [cur]
      | some (some p) => (reconstructPath parent fuel p).map (fun path => path ++ [cur])

/-- The neighbor loop of `astar_search` (lines 112-120): for each
successor, if it is newly discovered or its cost improves, record cost
`g + 1` and parent, push `(f, g + 1, nxt)`, and count it as generated. -/
def astarExpand (M_total C_total : Int) (g : Int) (current : MCState) :
    List MCState → AState → AState
  | [], st => st
  | nxt :: rest, st =>
      let tentative_g := g + 1
      let improves :=
        match lookupA st.gCost nxt with
        | none => true
        | some old => decide (tentative_g < old)
      if improves then
        let h := heuristic nxt M_total C_total
        let f := tentative_g + h
        astarExpand M_total C_total g current rest
          { heap := heapInsert (f, tentative_g, nxt) st.heap
            gCost := (nxt, tentative_g) :: st.gCost
            parent := (nxt, some current) :: st.parent
            visited := st.visited
            numGenerated := st.numGenerated + 1
            events := st.events ++ [HeapEvent.push (f, tentative_g, nxt)] }
      else astarExpand M_total C_total g current rest st

/-- The `while open_heap:` loop of `astar_search` (lines 94-122).
Returns the final local state (for the ghost trace) and the result:
`some (some path, n)` for a found path, `some (none, n)` when the
frontier empties, `none` only when the fuel runs out. -/
def astarLoop (M_total C_total boat_capacity : Int) (goal_state : MCState) :
    Nat → AState → AState × Option (Option (List MCState) × Nat)
  | 0, st => (st, none)
  | fuel + 1, st =>
      match st.heap with
      | [] => (st, some (none, st.numGenerated))
      | e :: rest =>
          let st₁ : AState := { st with heap := rest, events := st.events ++ [HeapEvent.pop e] }
          if e.2.2 ∈ st₁.visited then
            astarLoop M_total C_total boat_capacity goal_state fuel st₁
          else
            let st₂ : AState := { st₁ with visited := e.2.2 :: st₁.visited }
            if e.2.2 = goal_state then
              match reconstructPath st₂.parent (st₂.parent.length + 1) e.2.2 with
              | some path => (st₂, some (some path, st₂.numGenerated))
              | none => (st₂, none)
            else
              astarLoop M_total C_total boat_capacity goal_state fuel
                (astarExpand M_total C_total e.2.1 e.2.2
                  (get_next_states e.2.2 M_total C_total boat_capacity) st₂)

/-- The initialisation of `astar_search` (lines 85-92): push
`(h(start), 0, start)`, record `g_cost[start] = 0`,
`parent[start] = None`, and count the start state as generated. -/
def astarInit (M_total C_total : Int) (start_state : MCState) : AState :=
  let start_h := heuristic start_state M_total C_total
  { heap := [(start_h, 0, start_state)]
    gCost := [(start_state, 0)]
    parent := [(start_state, none)]
    visited := []
    numGenerated := 1
    events := [HeapEvent.push (start_h, 0, start_state)] }

/-- `astar_search` (lines 73-122), with explicit fuel. -/
def astar_search (M_total C_total : Int) (start_state goal_state : MCState)
    (boat_capacity : Int) (fuel : Nat) : Option (Option (List MCState) × Nat) :=
  (astarLoop M_total C_total boat_capacity goal_state fuel
    (astarInit M_total C_total start_state)).2

/-- The ghost heap-event trace of the same run of `astar_search`. -/
def astar_events (M_total C_total : Int) (start_state goal_state : MCState)
    (boat_capacity : Int) (fuel : Nat) : List HeapEvent :=
  (astarLoop M_total C_total boat_capacity goal_state fuel
    (astarInit M_total C_total start_state)).1.events

/-- The start state built by `solve_missionaries_cannibals`
(lines 141-150): `None` distribution arguments default to everyone on
the left bank. -/
def startStateOf (M_total C_total : Int) (M_left C_left M_right C_right : Option Int)
    (boat_position : Boat) : MCState :=
  (M_left.getD M_total, C_left.getD C_total, M_right.getD 0, C_right.getD 0, boat_position)

/-- The goal state of `solve_missionaries_cannibals` (line 151). -/
def goalStateOf (M_total C_total : Int) : MCState :=
  (0, 0, M_total, C_total, Boat.right)

instance decEqNatMCState : DecidableEq (Nat × MCState) := inferInstance

/-- The solver's return value: the formatted path (Python: a dict from
`str(i)` to the state's fields, modelled as the index-state pairs) or
`None`, plus `number_of_states`. -/
structure SolveResult where
  output : Option (List (Nat × MCState))
  number_of_states : Nat
deriving DecidableEq, Repr

/-- `solve_missionaries_cannibals` (lines 124-168), with explicit fuel
for the embedded search.  The `print` on the no-solution branch is a
side effect outside the model. -/
def solve_missionaries_cannibals (M_total C_total boat_capacity : Int)
    (M_left C_left M_right C_right : Option Int) (boat_position : Boat)
    (fuel : Nat) : Option SolveResult :=
  let start_state := startStateOf M_total C_total M_left C_left M_right C_right boat_position
  let goal_state := goalStateOf M_total C_total
  match astar_search M_total C_total start_state goal_state boat_capacity fuel with
  | none => none
  | some (none, num_generated) => some ⟨none, num_generated⟩
  | some (some path, num_generated) => some ⟨some path.enum, num_generated⟩

/-- The strategy dispatch of the `/missionary-cannibal` handler in
`app.py` (lines 18-36), abstracted over the response each solver branch
would produce (the BFS and DFS solver modules are not part of the
sources; the A* branch's call is `solve_missionaries_cannibals` with
positional arguments).  No branch matching the selector means the
Python function falls through and returns `None`: the outer `none`,
i.e. no response at all.  The handler performs no parameter
validation before dispatching. -/
def missionary_cannibal_dispatch (solver : String)
    (bfs_response dfs_response astar_response : Option SolveResult) :
    Option (Option SolveResult) :=
  if solver = "bfs" then some bfs_response
  else if solver = "dfs" then some dfs_response
  else if solver = "a_star" then some astar_response
  else none

/-- `reachesIn M C cap n s t = true` iff some sequence of exactly `n`
legal moves (each produced by `get_next_states`) leads from `s` to `t`. -/
def reachesIn (M_total C_total boat_capacity : Int) : Nat → MCState → MCState → Bool
  | 0, s, t => decide (s = t)
  | n + 1, s, t =>
      (get_next_states s M_total C_total boat_capacity).any
        (fun s' => reachesIn M_total C_total boat_capacity n s' t)

/-! ## Facts about the legality checker and the successor generator -/

/-- C4: `is_valid_state` returns `True` exactly when every bank count is
nonnegative, no bank count exceeds its total, and on each bank holding at
least one missionary the cannibals there do not outnumber the
missionaries; a bank with zero missionaries passes the missionary
constraint regardless of its cannibal count. -/
theorem is_valid_state_iff (M_left C_left M_right C_right M_total C_total : Int) :
    is_valid_state M_left C_left M_right C_right M_total C_total = true ↔
      (0 ≤ M_left ∧ 0 ≤ C_left ∧ 0 ≤ M_right ∧ 0 ≤ C_right ∧
       M_left ≤ M_total ∧ M_right ≤ M_total ∧ C_left ≤ C_total ∧ C_right ≤ C_total ∧
       (0 < M_left → C_left ≤ M_left) ∧ (0 < M_right → C_right ≤ M_right)) := by
  unfold is_valid_state
  split_ifs <;> simp <;> omega

theorem mem_get_possible_moves {i j : Nat} {cap : Int} :
    (i, j) ∈ get_possible_moves cap ↔ 0 < i + j ∧ (i : Int) + (j : Int) ≤ cap := by
  unfold get_possible_moves
  simp only [List.mem_flatMap, List.mem_map, List.mem_filter, List.mem_range,
    decide_eq_true_eq, Prod.mk.injEq]
  constructor
  · rintro ⟨a, ha, b, ⟨⟨hb, hcond⟩, hab⟩⟩
    obtain ⟨rfl, rfl⟩ := hab
    omega
  · rintro ⟨hpos, hle⟩
    refine ⟨i, by omega, j, ⟨⟨by omega, by omega⟩, rfl, rfl⟩⟩

theorem count_filterMap_eq_length_filter {α β : Type} [BEq β] [LawfulBEq β] [DecidableEq β]
    (f : α → Option β) (b : β) (l : List α) :
    (l.filterMap f).count b = (l.filter (fun a => decide (f a = some b))).length := by
  induction l with
  | nil => simp
  | cons x xs ih =>
    rcases h : f x with _ | val
    · simp [List.filterMap_cons, h, ih]
    · by_cases hv : val = b
      · subst hv
        simp [List.filterMap_cons, h, List.count_cons, ih]
      · simp [List.filterMap_cons, h, List.count_cons, hv, ih]

theorem mem_get_next_states {s' : MCState} {s : MCState} {Mt Ct cap : Int} :
    s' ∈ get_next_states s Mt Ct cap ↔
      ∃ m ∈ get_possible_moves cap, moveResult s m = s' ∧ validState s' Mt Ct = true := by
  obtain ⟨Ml, Cl, Mr, Cr, bp⟩ := s
  cases bp <;>
  · simp only [get_next_states, moveResult, List.mem_filterMap]
    constructor
    · rintro ⟨m, hm, hf⟩
      by_cases hv : is_valid_state (Ml - m.1) (Cl - m.2) (Mr + m.1) (Cr + m.2) Mt Ct = true <;>
        by_cases hv' : is_valid_state (Ml + m.1) (Cl + m.2) (Mr - m.1) (Cr - m.2) Mt Ct = true <;>
        simp [hv, hv'] at hf <;>
        · obtain rfl := hf.symm
          exact ⟨m, hm, rfl, by simpa [validState] using by assumption⟩
    · rintro ⟨m, hm, rfl, hval⟩
      refine ⟨m, hm, ?_⟩
      simp only [validState] at hval
      simp [hval]

/-- C5: `get_next_states` returns exactly the states obtained by taking a
possible move `(i missionaries, j cannibals)` with `1 ≤ i + j ≤ capacity`
from the boat's bank to the opposite bank (flipping the boat side) and
keeping the results accepted by `is_valid_state`; occurrences are not
deduplicated — each occurrence of a state corresponds to a generating
move.  (The function is pure and rebuilds its list on every call by
construction of the embedding.) -/
theorem get_next_states_spec (s : MCState) (Mt Ct cap : Int) (s' : MCState) :
    (s' ∈ get_next_states s Mt Ct cap ↔
      ∃ m ∈ get_possible_moves cap, moveResult s m = s' ∧ validState s' Mt Ct = true) ∧
    ((get_next_states s Mt Ct cap).count s' =
      ((get_possible_moves cap).filter
        (fun m => decide (moveResult s m = s') && validState s' Mt Ct)).length) ∧
    (∀ i j : Nat, (i, j) ∈ get_possible_moves cap ↔ 0 < i + j ∧ (i : Int) + (j : Int) ≤ cap) := by
  refine ⟨mem_get_next_states, ?_, fun i j => mem_get_possible_moves⟩
  obtain ⟨Ml, Cl, Mr, Cr, bp⟩ := s
  cases bp with
  | left =>
    simp only [get_next_states]
    refine (count_filterMap_eq_length_filter _ s' _).trans
      (congrArg List.length (List.filter_congr ?_))
    intro m _
    simp only [moveResult]
    by_cases he : ((Ml - (m.1 : Int), Cl - (m.2 : Int), Mr + m.1, Cr + m.2,
        Boat.right) : MCState) = s'
    · subst he
      by_cases hv : is_valid_state (Ml - m.1) (Cl - m.2) (Mr + m.1) (Cr + m.2) Mt Ct = true
      · simp [hv, validState]
      · simp only [Bool.not_eq_true] at hv
        simp [hv, validState]
    · by_cases hv : is_valid_state (Ml - m.1) (Cl - m.2) (Mr + m.1) (Cr + m.2) Mt Ct = true
      · simp [hv, he]
      · simp only [Bool.not_eq_true] at hv
        simp [hv, he]
  | right =>
    simp only [get_next_states]
    refine (count_filterMap_eq_length_filter _ s' _).trans
      (congrArg List.length (List.filter_congr ?_))
    intro m _
    simp only [moveResult]
    by_cases he : ((Ml + (m.1 : Int), Cl + (m.2 : Int), Mr - m.1, Cr - m.2,
        Boat.left) : MCState) = s'
    · subst he
      by_cases hv : is_valid_state (Ml + m.1) (Cl + m.2) (Mr - m.1) (Cr - m.2) Mt Ct = true
      · simp [hv, validState]
      · simp only [Bool.not_eq_true] at hv
        simp [hv, validState]
    · by_cases hv : is_valid_state (Ml + m.1) (Cl + m.2) (Mr - m.1) (Cr - m.2) Mt Ct = true
      · simp [hv, he]
      · simp only [Bool.not_eq_true] at hv
        simp [hv, he]

/-! ## Consequences for single moves -/

theorem next_state_valid {s s' : MCState} {Mt Ct cap : Int}
    (h : s' ∈ get_next_states s Mt Ct cap) : validState s' Mt Ct = true := by
  obtain ⟨m, _, _, hv⟩ := mem_get_next_states.mp h
  exact hv

theorem next_state_sums {s s' : MCState} {Mt Ct cap : Int}
    (h : s' ∈ get_next_states s Mt Ct cap) : msum s' = msum s ∧ csum s' = csum s := by
  obtain ⟨m, _, rfl, _⟩ := mem_get_next_states.mp h
  obtain ⟨Ml, Cl, Mr, Cr, bp⟩ := s
  cases bp <;> simp [moveResult, msum, csum]

theorem next_state_ne {s s' : MCState} {Mt Ct cap : Int}
    (h : s' ∈ get_next_states s Mt Ct cap) : s' ≠ s := by
  obtain ⟨m, _, rfl, _⟩ := mem_get_next_states.mp h
  obtain ⟨Ml, Cl, Mr, Cr, bp⟩ := s
  cases bp <;> simp [moveResult]

theorem next_state_people {s s' : MCState} {Mt Ct cap : Int}
    (h : s' ∈ get_next_states s Mt Ct cap) :
    s.1 + s.2.1 ≤ s'.1 + s'.2.1 + cap := by
  obtain ⟨m, hm, rfl, _⟩ := mem_get_next_states.mp h
  obtain ⟨hpos, hle⟩ := mem_get_possible_moves.mp (show (m.1, m.2) ∈ _ from hm)
  obtain ⟨Ml, Cl, Mr, Cr, bp⟩ := s
  cases bp <;> simp [moveResult] <;> omega

theorem heuristic_consistent {s s' : MCState} {Mt Ct cap : Int} (hcap : cap ≤ 2)
    (h : s' ∈ get_next_states s Mt Ct cap) :
    heuristic s Mt Ct ≤ heuristic s' Mt Ct + 1 := by
  have hp := next_state_people h
  simp only [heuristic]
  omega

theorem ceil_half_int (p : Int) : ⌈(p : ℚ) / 2⌉ = (p + 1) / 2 := by
  have h1 : 2 * ((p + 1) / 2) ≤ p + 1 := by omega
  have h2 : p ≤ 2 * ((p + 1) / 2) := by omega
  rw [Int.ceil_eq_iff]
  constructor
  · rw [lt_div_iff₀ (by norm_num : (0 : ℚ) < 2)]
    have h3 : ((p + 1) / 2 - 1) * 2 < p := by omega
    exact_mod_cast h3
  · rw [div_le_iff₀ (by norm_num : (0 : ℚ) < 2)]
    have h4 : p ≤ ((p + 1) / 2) * 2 := by omega
    exact_mod_cast h4

/-- Any `n`-move path to a state with nobody on the left bank needs
`n ≥ ceil(people_left / 2)` when at most 2 people cross per move. -/
theorem reachesIn_heuristic_le {Mt Ct cap : Int} (hcap : cap ≤ 2) :
    ∀ (n : Nat) (s t : MCState), t.1 + t.2.1 = 0 →
      reachesIn Mt Ct cap n s t = true → heuristic s Mt Ct ≤ (n : Int)
  | 0, s, t, ht, hr => by
    simp only [reachesIn, decide_eq_true_eq] at hr
    subst hr
    simp only [heuristic]
    omega
  | n + 1, s, t, ht, hr => by
    simp only [reachesIn, List.any_eq_true] at hr
    obtain ⟨s', hs', hrest⟩ := hr
    have ih := reachesIn_heuristic_le hcap n s' t ht hrest
    have hcons := heuristic_consistent hcap hs'
    push_cast
    omega

/-! ## The heuristic (claim C7) -/

/-- C7 counterexample: with boat capacity 3 (which is ≥ 2), from the
all-left start of the `M_total = 3, C_total = 0` instance a single legal
move reaches the goal, yet the heuristic value is 2 > 1 — the heuristic
does overestimate the true number of remaining moves for a boat
capacity ≥ 2. -/
theorem heuristic_overestimates_at_cap3 :
    heuristic (3, 0, 0, 0, Boat.left) 3 0 = 2 ∧
    reachesIn 3 0 3 1 (3, 0, 0, 0, Boat.left) (0, 0, 3, 0, Boat.right) = true ∧
    ¬(heuristic (3, 0, 0, 0, Boat.left) 3 0 ≤ 1) := by decide

/-- C7 (amended): for every state, the heuristic value equals
`ceil((M_left + C_left) / 2)` — it is always computed from the left
bank, the bank holding the start state's people in the default all-left
start — and for boat capacity ≤ 2 it never overestimates the number of
moves of any move sequence from the state to the goal (everyone on the
right bank). -/
theorem heuristic_spec (s : MCState) (Mt Ct : Int) :
    heuristic s Mt Ct = ⌈((s.1 + s.2.1 : Int) : ℚ) / 2⌉ ∧
    (∀ (cap : Int) (n : Nat), cap ≤ 2 →
      reachesIn Mt Ct cap n s (goalStateOf Mt Ct) = true →
      heuristic s Mt Ct ≤ (n : Int)) := by
  constructor
  · rw [ceil_half_int]
    rfl
  · intro cap n hcap hr
    exact reachesIn_heuristic_le hcap n s _ (by simp [goalStateOf]) hr

theorem heuristic_spec_witness :
    (1 : Int) ≤ 2 ∧ reachesIn 0 1 1 1 (0, 1, 0, 0, Boat.left) (goalStateOf 0 1) = true ∧
    heuristic (0, 1, 0, 0, Boat.left) 0 1 ≤ ((1 : Nat) : Int) :=
  ⟨by decide, by decide,
    (heuristic_spec (0, 1, 0, 0, Boat.left) 0 1).2 1 1 (by decide) (by decide)⟩

/-! ## The capacity-2 instance with two missionaries and two cannibals
(claim C2) -/

/-- C2 counterexample: for `M_total = 2, C_total = 2, boat_capacity = 2`
with the default all-left start, the solver's returned solution has
6 states, not 5.  (A 5-state path — 4 moves — cannot end with the boat
on the right, since moves alternate banks starting from the left.) -/
theorem solve_2_2_not_five_states :
    ((solve_missionaries_cannibals 2 2 2 none none none none Boat.left 100).bind
      (fun r => r.output.map List.length)) = some 6 ∧ (6 : Nat) ≠ 5 := by decide

/-- C2 (amended): for `M_total = 2, C_total = 2, boat_capacity = 2` with
the default all-left start, the solver returns a solution of 6 states
(indices 0..5) whose final state is `(0, 0, 2, 2, 'right')`, with 10
states generated. -/
theorem solve_2_2_result :
    solve_missionaries_cannibals 2 2 2 none none none none Boat.left 100 =
      some ⟨some [
          (0, (2, 2, 0, 0, Boat.left)),
          (1, (1, 1, 1, 1, Boat.right)),
          (2, (2, 1, 0, 1, Boat.left)),
          (3, (0, 1, 2, 1, Boat.right)),
          (4, (0, 2, 2, 0, Boat.left)),
          (5, (0, 0, 2, 2, Boat.right))], 10⟩ := by decide

/-! ## Input validation and strategy dispatch (claim C3) -/

theorem get_next_states_nil_of_neg {Mt Ct : Int} (hM : Mt < 0) :
    get_next_states (Mt, Ct, 0, 0, Boat.left) Mt Ct 2 = [] := by
  rw [List.eq_nil_iff_forall_not_mem]
  intro s' hs'
  obtain ⟨m, hm, rfl, hval⟩ := mem_get_next_states.mp hs'
  simp only [moveResult, validState] at hval
  rw [is_valid_state_iff] at hval
  omega

/-- C3 counterexample: a request with negative totals is not rejected —
the A* solver runs the search and produces a search result — and a
request with an unrecognized strategy selector yields no response at
all from the handler dispatch (no failure report of any kind). -/
theorem no_validation_counterexample :
    solve_missionaries_cannibals (-1) (-1) 2 none none none none Boat.left 2 =
      some ⟨none, 1⟩ ∧
    missionary_cannibal_dispatch "greedy" none none none = none := by decide

/-- C3 (amended): neither the handler nor the solver validates input.
A request whose strategy selector matches none of `"bfs"`, `"dfs"`,
`"a_star"` falls through the dispatch with no response and no failure
report; a request with negative totals (shown here for the default
boat capacity and all-left start) is passed to the search, which runs
and produces an ordinary search result rather than an
`InvalidParameters` rejection. -/
theorem no_validation_before_search :
    (∀ (solver : String) (b d a : Option SolveResult),
      solver ≠ "bfs" → solver ≠ "dfs" → solver ≠ "a_star" →
      missionary_cannibal_dispatch solver b d a = none) ∧
    (∀ Mt Ct : Int, Mt < 0 → Ct < 0 →
      solve_missionaries_cannibals Mt Ct 2 none none none none Boat.left 2 =
        some ⟨none, 1⟩) := by
  constructor
  · intro solver b d a h1 h2 h3
    simp [missionary_cannibal_dispatch, h1, h2, h3]
  · intro Mt Ct hM hC
    have hgoal : ((Mt, Ct, 0, 0, Boat.left) : MCState) ≠ goalStateOf Mt Ct := by
      simp [goalStateOf]
    simp only [solve_missionaries_cannibals, startStateOf, goalStateOf, astar_search,
      astarInit, Option.getD]
    simp only [astarLoop, astarExpand, get_next_states_nil_of_neg hM]
    simp only [List.not_mem_nil, if_false]
    rw [if_neg (by simpa [goalStateOf] using hgoal)]

theorem no_validation_before_search_witness :
    ("greedy" ≠ "bfs" ∧ "greedy" ≠ "dfs" ∧ "greedy" ≠ "a_star" ∧
      missionary_cannibal_dispatch "greedy" none none none = none) ∧
    ((-2 : Int) < 0 ∧
      solve_missionaries_cannibals (-2) (-2) 2 none none none none Boat.left 2 =
        some ⟨none, 1⟩) :=
  ⟨⟨by decide, by decide, by decide,
      no_validation_before_search.1 "greedy" none none none
        (by decide) (by decide) (by decide)⟩,
    ⟨by decide, no_validation_before_search.2 (-2) (-2) (by decide) (by decide)⟩⟩

/-! ## The no-path outcome (claim C8) -/

/-- C8: when the frontier empties before the goal state is dequeued the
search loop returns the no-path signal `None` together with the
`states_generated` count, and the solver reports this as
`output = None` with the same `number_of_states` count instead of
raising an error. -/
theorem astar_no_path_report :
    (∀ (Mt Ct cap : Int) (goal : MCState) (fuel : Nat) (st : AState), st.heap = [] →
      astarLoop Mt Ct cap goal (fuel + 1) st = (st, some (none, st.numGenerated))) ∧
    (∀ (Mt Ct cap : Int) (Ml Cl Mr Cr : Option Int) (bp : Boat) (fuel n : Nat),
      astar_search Mt Ct (startStateOf Mt Ct Ml Cl Mr Cr bp) (goalStateOf Mt Ct) cap fuel =
        some (none, n) →
      solve_missionaries_cannibals Mt Ct cap Ml Cl Mr Cr bp fuel = some ⟨none, n⟩) := by
  constructor
  · intro Mt Ct cap goal fuel st hheap
    obtain ⟨heap, gC, par, vis, num, evs⟩ := st
    simp only at hheap
    subst hheap
    simp [astarLoop]
  · intro Mt Ct cap Ml Cl Mr Cr bp fuel n hsearch
    simp only [solve_missionaries_cannibals]
    rw [hsearch]

theorem astar_no_path_report_witness :
    ((⟨[], [], [], [], 5, []⟩ : AState).heap = [] ∧
      astarLoop 0 0 0 (goalStateOf 0 0) 1 ⟨[], [], [], [], 5, []⟩ =
        (⟨[], [], [], [], 5, []⟩, some (none, 5))) ∧
    (astar_search 0 2 (startStateOf 0 2 none none none none Boat.left)
        (goalStateOf 0 2) 1 100 = some (none, 2) ∧
      solve_missionaries_cannibals 0 2 1 none none none none Boat.left 100 =
        some ⟨none, 2⟩) :=
  ⟨⟨rfl, astar_no_path_report.1 0 0 0 (goalStateOf 0 0) 0 ⟨[], [], [], [], 5, []⟩ rfl⟩,
    ⟨by decide,
      astar_no_path_report.2 0 2 1 none none none none Boat.left 100 2 (by decide)⟩⟩

/-! ## Soundness of path reconstruction and the A* loop
(claims C1, C9, C10) -/

theorem lookupA_cons {α β : Type} [DecidableEq α] (k : α) (v : β) (l : List (α × β)) (a : α) :
    lookupA ((k, v) :: l) a = if a = k then some v else lookupA l a := rfl

theorem mem_heapInsert {e a : Entry} : ∀ {l : List Entry}, a ∈ heapInsert e l ↔ a = e ∨ a ∈ l
  | [] => by simp [heapInsert]
  | x :: xs => by
    simp only [heapInsert]
    split
    · simp
    · rw [List.mem_cons, List.mem_cons, mem_heapInsert]
      tauto

/-- Following back-pointers from `s` yields a path from `start` to `s`
whose consecutive states are successor-related, provided every `None`
back-pointer belongs to `start` and every recorded parent generated its
child. -/
theorem reconstructPath_sound {Mt Ct cap : Int} {start : MCState}
    {parent : List (MCState × Option MCState)}
    (hnone : ∀ s, lookupA parent s = some none → s = start)
    (hstep : ∀ s q, lookupA parent s = some (some q) → s ∈ get_next_states q Mt Ct cap) :
    ∀ (fuel : Nat) (s : MCState) (path : List MCState),
      reconstructPath parent fuel s = some path →
      path.head? = some start ∧ path.getLast? = some s ∧
      List.Chain' (fun a b => b ∈ get_next_states a Mt Ct cap) path
  | 0, s, path => by simp [reconstructPath]
  | fuel + 1, s, path => by
    intro h
    simp only [reconstructPath] at h
    rcases hl : lookupA parent s with _ | v
    · rw [hl] at h
      exact absurd h (by simp)
    · rcases v with _ | q
      · rw [hl] at h
        obtain rfl : [s] = path := by simpa using h
        obtain rfl : s = start := hnone s hl
        simp
      · simp only [hl] at h
        rcases hrec : reconstructPath parent fuel q with _ | path'
        · rw [hrec] at h
          exact absurd h (by simp)
        · rw [hrec] at h
          obtain rfl : path' ++ [s] = path := by simpa using h
          obtain ⟨hhead, hlast, hchain⟩ := reconstructPath_sound hnone hstep fuel q path' hrec
          have hne : path' ≠ [] := by
            intro hnil
            rw [hnil] at hhead
            simp at hhead
          refine ⟨?_, ?_, ?_⟩
          · rwa [List.head?_append_of_ne_nil _ hne]
          · simp [List.getLast?_concat]
          · rw [List.chain'_append]
            refine ⟨hchain, List.chain'_singleton s, ?_⟩
            intro x hx y hy
            rw [hlast, Option.mem_def, Option.some_inj] at hx
            subst hx
            simp only [List.head?_cons, Option.mem_def, Option.some_inj] at hy
            subst hy
            exact hstep _ _ hl

/-- Back-pointer chains strictly decrease the recorded cost, so a
reconstructed path has at most `g_cost(s) + 1` states. -/
theorem reconstructPath_length {parent : List (MCState × Option MCState)}
    {gC : List (MCState × Int)}
    (hlt : ∀ s q, lookupA parent s = some (some q) →
      ∃ gs gq, lookupA gC s = some gs ∧ lookupA gC q = some gq ∧ gq < gs)
    (hnn : ∀ s gs, lookupA gC s = some gs → 0 ≤ gs) :
    ∀ (fuel : Nat) (s : MCState) (path : List MCState) (gs : Int),
      reconstructPath parent fuel s = some path → lookupA gC s = some gs →
      path.length ≤ gs.toNat + 1
  | 0, s, path, gs => by simp [reconstructPath]
  | fuel + 1, s, path, gs => by
    intro h hgs
    simp only [reconstructPath] at h
    rcases hl : lookupA parent s with _ | v
    · rw [hl] at h
      exact absurd h (by simp)
    · rcases v with _ | q
      · rw [hl] at h
        obtain rfl : [s] = path := by simpa using h
        simp
      · simp only [hl] at h
        rcases hrec : reconstructPath parent fuel q with _ | path'
        · rw [hrec] at h
          exact absurd h (by simp)
        · rw [hrec] at h
          obtain rfl : path' ++ [s] = path := by simpa using h
          obtain ⟨gs', gq, hgs', hgq, hlt'⟩ := hlt s q hl
          obtain rfl : gs' = gs := by rw [hgs'] at hgs; exact Option.some_inj.mp hgs
          have ih := reconstructPath_length hlt hnn fuel q path' gq hrec hgq
          have h0 : 0 ≤ gq := hnn q gq hgq
          simp only [List.length_append, List.length_singleton]
          omega

/-- The loop invariant of `astar_search` relating the frontier, the cost
map, the parent map and the generated-state counter:
every `None` back-pointer belongs to the start state; every recorded
parent generated its child and has strictly smaller recorded cost;
recorded costs are nonnegative and below the generated count; frontier
entries carry nonnegative costs below the generated count and
dominate the recorded cost of their state; the start keeps cost 0. -/
structure GoodCore (Mt Ct cap : Int) (start : MCState) (heap : List Entry)
    (gC : List (MCState × Int)) (par : List (MCState × Option MCState))
    (numGen : Nat) : Prop where
  parent_none : ∀ s, lookupA par s = some none → s = start
  parent_step : ∀ s q, lookupA par s = some (some q) → s ∈ get_next_states q Mt Ct cap
  parent_lt : ∀ s q, lookupA par s = some (some q) →
    ∃ gs gq, lookupA gC s = some gs ∧ lookupA gC q = some gq ∧ gq < gs
  g_bounds : ∀ s gs, lookupA gC s = some gs → 0 ≤ gs ∧ gs + 1 ≤ (numGen : Int)
  heap_ok : ∀ e ∈ heap, 0 ≤ e.2.1 ∧ e.2.1 + 1 ≤ (numGen : Int) ∧
    ∃ gs, lookupA gC e.2.2 = some gs ∧ gs ≤ e.2.1
  g_start : lookupA gC start = some 0
  gen_pos : 1 ≤ numGen

theorem goodCore_init (Mt Ct cap : Int) (start : MCState) :
    GoodCore Mt Ct cap start (astarInit Mt Ct start).heap (astarInit Mt Ct start).gCost
      (astarInit Mt Ct start).parent (astarInit Mt Ct start).numGenerated := by
  simp only [astarInit]
  refine ⟨?_, ?_, ?_, ?_, ?_, ?_, ?_⟩
  · intro s h
    rw [lookupA_cons] at h
    by_cases hs : s = start
    · exact hs
    · simp [lookupA, hs] at h
  · intro s q h
    rw [lookupA_cons] at h
    by_cases hs : s = start <;> simp [lookupA, hs] at h
  · intro s q h
    rw [lookupA_cons] at h
    by_cases hs : s = start <;> simp [lookupA, hs] at h
  · intro s gs h
    rw [lookupA_cons] at h
    by_cases hs : s = start
    · subst hs
      simp [lookupA] at h
      omega
    · simp [lookupA, hs] at h
  · intro e he
    obtain rfl : e = (heuristic start Mt Ct, 0, start) := by simpa using he
    refine ⟨le_refl 0, by norm_num, 0, ?_, le_refl 0⟩
    simp [lookupA_cons]
  · simp [lookupA_cons]
  · exact le_refl 1

theorem goodCore_push {Mt Ct cap : Int} {start current nxt : MCState} {g f : Int}
    {heap : List Entry} {gC : List (MCState × Int)} {par : List (MCState × Option MCState)}
    {numGen : Nat}
    (hgood : GoodCore Mt Ct cap start heap gC par numGen)
    (hnxt : nxt ∈ get_next_states current Mt Ct cap)
    (hg0 : 0 ≤ g) (hgn : g + 1 ≤ (numGen : Int))
    (hcur : ∃ gc, lookupA gC current = some gc ∧ gc ≤ g)
    (himp : lookupA gC nxt = none ∨ ∃ old, lookupA gC nxt = some old ∧ g + 1 < old) :
    GoodCore Mt Ct cap start (heapInsert (f, g + 1, nxt) heap) ((nxt, g + 1) :: gC)
      ((nxt, some current) :: par) (numGen + 1) ∧
    (∃ gc, lookupA ((nxt, g + 1) :: gC) current = some gc ∧ gc ≤ g) := by
  obtain ⟨gc, hgc, hgcle⟩ := hcur
  have hne : nxt ≠ current := next_state_ne hnxt
  have hnstart : nxt ≠ start := by
    intro heq
    subst heq
    rcases himp with hnone | ⟨old, hold, hlt⟩
    · rw [hgood.g_start] at hnone
      exact absurd hnone (by simp)
    · rw [hgood.g_start] at hold
      obtain rfl : (0 : Int) = old := Option.some_inj.mp hold
      omega
  have hcur' : lookupA ((nxt, g + 1) :: gC) current = some gc := by
    rw [lookupA_cons, if_neg (fun hcc => hne hcc.symm)]
    exact hgc
  refine ⟨⟨?_, ?_, ?_, ?_, ?_, ?_, ?_⟩, gc, hcur', hgcle⟩
  · intro s h
    rw [lookupA_cons] at h
    by_cases hs : s = nxt
    · rw [if_pos hs] at h
      exact absurd h (by simp)
    · rw [if_neg hs] at h
      exact hgood.parent_none s h
  · intro s q h
    rw [lookupA_cons] at h
    by_cases hs : s = nxt
    · rw [if_pos hs] at h
      obtain rfl : current = q := by simpa using h
      subst hs
      exact hnxt
    · rw [if_neg hs] at h
      exact hgood.parent_step s q h
  · intro s q h
    rw [lookupA_cons] at h
    by_cases hs : s = nxt
    · rw [if_pos hs] at h
      obtain rfl : current = q := by simpa using h
      subst hs
      refine ⟨g + 1, gc, ?_, hcur', by omega⟩
      rw [lookupA_cons, if_pos rfl]
    · rw [if_neg hs] at h
      obtain ⟨gs, gq, hgs, hgq, hlt⟩ := hgood.parent_lt s q h
      by_cases hq : q = nxt
      · subst hq
        rcases himp with hnone | ⟨old, hold, holt⟩
        · rw [hgq] at hnone
          exact absurd hnone (by simp)
        · obtain rfl : gq = old := by rw [hgq] at hold; exact Option.some_inj.mp hold
          refine ⟨gs, g + 1, ?_, ?_, by omega⟩
          · rw [lookupA_cons, if_neg hs]
            exact hgs
          · rw [lookupA_cons, if_pos rfl]
      · refine ⟨gs, gq, ?_, ?_, hlt⟩
        · rw [lookupA_cons, if_neg hs]
          exact hgs
        · rw [lookupA_cons, if_neg hq]
          exact hgq
  · intro s gs h
    rw [lookupA_cons] at h
    by_cases hs : s = nxt
    · rw [if_pos hs] at h
      obtain rfl : g + 1 = gs := Option.some_inj.mp h
      push_cast
      omega
    · rw [if_neg hs] at h
      obtain ⟨h1, h2⟩ := hgood.g_bounds s gs h
      push_cast
      push_cast at h2
      omega
  · intro e he
    rw [mem_heapInsert] at he
    rcases he with rfl | he
    · refine ⟨show (0 : Int) ≤ g + 1 by omega,
        show g + 1 + 1 ≤ ((numGen + 1 : Nat) : Int) by push_cast; omega,
        g + 1, ?_, le_refl _⟩
      rw [lookupA_cons, if_pos rfl]
    · obtain ⟨h1, h2, gs, hgs, hgsle⟩ := hgood.heap_ok e he
      refine ⟨h1, by push_cast; push_cast at h2; omega, ?_⟩
      by_cases hsnxt : e.2.2 = nxt
      · rcases himp with hnone | ⟨old, hold, holt⟩
        · rw [hsnxt] at hgs
          rw [hgs] at hnone
          exact absurd hnone (by simp)
        · rw [hsnxt] at hgs
          obtain rfl : gs = old := by rw [hgs] at hold; exact Option.some_inj.mp hold
          refine ⟨g + 1, ?_, by omega⟩
          rw [hsnxt, lookupA_cons, if_pos rfl]
      · refine ⟨gs, ?_, hgsle⟩
        rw [lookupA_cons, if_neg hsnxt]
        exact hgs
  · rw [lookupA_cons, if_neg (fun hss => hnstart hss.symm)]
    exact hgood.g_start
  · omega

theorem goodCore_expand {Mt Ct cap : Int} {start current : MCState} {g : Int} :
    ∀ (l : List MCState) (st : AState),
      (∀ x ∈ l, x ∈ get_next_states current Mt Ct cap) →
      GoodCore Mt Ct cap start st.heap st.gCost st.parent st.numGenerated →
      0 ≤ g → g + 1 ≤ (st.numGenerated : Int) →
      (∃ gc, lookupA st.gCost current = some gc ∧ gc ≤ g) →
      GoodCore Mt Ct cap start (astarExpand Mt Ct g current l st).heap
        (astarExpand Mt Ct g current l st).gCost
        (astarExpand Mt Ct g current l st).parent
        (astarExpand Mt Ct g current l st).numGenerated ∧
      st.numGenerated ≤ (astarExpand Mt Ct g current l st).numGenerated
  | [], st => by
    intro _ hgood _ _ _
    exact ⟨hgood, le_refl _⟩
  | nxt :: rest, st => by
    intro hl hgood hg0 hgn hcur
    simp only [astarExpand]
    rcases hlook : lookupA st.gCost nxt with _ | old
    · simp only [hlook]
      have hstep := goodCore_push (f := g + 1 + heuristic nxt Mt Ct) hgood
        (hl nxt (List.mem_cons_self nxt rest)) hg0 hgn hcur (Or.inl hlook)
      have ih := goodCore_expand rest
        { heap := heapInsert (g + 1 + heuristic nxt Mt Ct, g + 1, nxt) st.heap
          gCost := (nxt, g + 1) :: st.gCost
          parent := (nxt, some current) :: st.parent
          visited := st.visited
          numGenerated := st.numGenerated + 1
          events := st.events ++ [HeapEvent.push (g + 1 + heuristic nxt Mt Ct, g + 1, nxt)] }
        (fun x hx => hl x (List.mem_cons_of_mem _ hx))
        hstep.1 hg0 (by push_cast; push_cast at hgn; omega) hstep.2
      exact ⟨ih.1, le_trans (Nat.le_succ _) ih.2⟩
    · simp only [hlook]
      by_cases hlt : g + 1 < old
      · rw [if_pos (by simpa using hlt)]
        have hstep := goodCore_push (f := g + 1 + heuristic nxt Mt Ct) hgood
          (hl nxt (List.mem_cons_self nxt rest)) hg0 hgn hcur (Or.inr ⟨old, hlook, hlt⟩)
        have ih := goodCore_expand rest
          { heap := heapInsert (g + 1 + heuristic nxt Mt Ct, g + 1, nxt) st.heap
            gCost := (nxt, g + 1) :: st.gCost
            parent := (nxt, some current) :: st.parent
            visited := st.visited
            numGenerated := st.numGenerated + 1
            events := st.events ++ [HeapEvent.push (g + 1 + heuristic nxt Mt Ct, g + 1, nxt)] }
          (fun x hx => hl x (List.mem_cons_of_mem _ hx))
          hstep.1 hg0 (by push_cast; push_cast at hgn; omega) hstep.2
        exact ⟨ih.1, le_trans (Nat.le_succ _) ih.2⟩
      · rw [if_neg (by simpa using hlt)]
        exact goodCore_expand rest st (fun x hx => hl x (List.mem_cons_of_mem _ hx))
          hgood hg0 hgn hcur

theorem astarLoop_sound {Mt Ct cap : Int} {start goal : MCState} :
    ∀ (fuel : Nat) (st stf : AState) (r : Option (List MCState)) (n : Nat),
      GoodCore Mt Ct cap start st.heap st.gCost st.parent st.numGenerated →
      astarLoop Mt Ct cap goal fuel st = (stf, some (r, n)) →
      1 ≤ n ∧ ∀ path, r = some path →
        path.head? = some start ∧ path.getLast? = some goal ∧
        List.Chain' (fun a b => b ∈ get_next_states a Mt Ct cap) path ∧
        path.length ≤ n
  | 0, st, stf, r, n => by
    intro hgood h
    simp [astarLoop] at h
  | fuel + 1, st, stf, r, n => by
    intro hgood h
    rcases hheap : st.heap with _ | ⟨e, rest⟩
    · simp only [astarLoop, hheap, Prod.mk.injEq, Option.some_inj] at h
      obtain ⟨hst, hr, hn⟩ := h
      subst hn
      refine ⟨hgood.gen_pos, ?_⟩
      intro path hp
      rw [← hr] at hp
      exact absurd hp (by simp)
    · simp only [astarLoop, hheap] at h
      by_cases hvis : e.2.2 ∈ st.visited
      · rw [if_pos hvis] at h
        refine astarLoop_sound fuel _ stf r n ?_ h
        exact ⟨hgood.parent_none, hgood.parent_step, hgood.parent_lt, hgood.g_bounds,
          fun e' he' => hgood.heap_ok e' (by rw [hheap]; exact List.mem_cons_of_mem _ he'),
          hgood.g_start, hgood.gen_pos⟩
      · rw [if_neg hvis] at h
        by_cases hgoal : e.2.2 = goal
        · rw [if_pos hgoal] at h
          rcases hrec : reconstructPath st.parent (st.parent.length + 1) e.2.2 with _ | path₀
          · rw [hrec] at h
            exact absurd h (by simp)
          · rw [hrec] at h
            simp only [Prod.mk.injEq, Option.some_inj] at h
            obtain ⟨hst, hr, hn⟩ := h
            constructor
            · rw [← hn]
              exact hgood.gen_pos
            · intro path hp
              obtain rfl : path₀ = path := by rw [← hr] at hp; exact Option.some_inj.mp hp
              obtain ⟨hh, hlast, hc⟩ :=
                reconstructPath_sound hgood.parent_none hgood.parent_step _ e.2.2 path₀ hrec
              refine ⟨hh, by rw [hgoal] at hlast; exact hlast, hc, ?_⟩
              obtain ⟨hg0, hgn, gs, hgs, hgsle⟩ :=
                hgood.heap_ok e (by rw [hheap]; exact List.mem_cons_self e rest)
              have hlen := reconstructPath_length hgood.parent_lt
                (fun s gs h => (hgood.g_bounds s gs h).1) _ e.2.2 path₀ gs hrec hgs
              obtain ⟨hgs0, hgsn⟩ := hgood.g_bounds _ gs hgs
              rw [← hn]
              omega
        · rw [if_neg hgoal] at h
          obtain ⟨hg0, hgn, gc, hgc, hgcle⟩ :=
            hgood.heap_ok e (by rw [hheap]; exact List.mem_cons_self e rest)
          refine astarLoop_sound fuel _ stf r n ?_ h
          refine (goodCore_expand (get_next_states e.2.2 Mt Ct cap)
            { heap := rest, gCost := st.gCost, parent := st.parent,
              visited := e.2.2 :: st.visited, numGenerated := st.numGenerated,
              events := st.events ++ [HeapEvent.pop e] }
            (fun x hx => hx) ?_ hg0 hgn ⟨gc, hgc, hgcle⟩).1
          exact ⟨hgood.parent_none, hgood.parent_step, hgood.parent_lt, hgood.g_bounds,
            fun e' he' => hgood.heap_ok e' (by rw [hheap]; exact List.mem_cons_of_mem _ he'),
            hgood.g_start, hgood.gen_pos⟩

/-- C1: whenever `astar_search` returns a path rather than the no-path
signal, the returned path — reconstructed from the parent map recorded
at first discovery or cost improvement — starts at the start state,
ends at the goal state, and every consecutive pair of its states is
related by `get_next_states`. -/
theorem astar_path_spec (Mt Ct cap : Int) (start goal : MCState) (fuel : Nat)
    (path : List MCState) (n : Nat)
    (h : astar_search Mt Ct start goal cap fuel = some (some path, n)) :
    path.head? = some start ∧ path.getLast? = some goal ∧
    List.Chain' (fun s t => t ∈ get_next_states s Mt Ct cap) path := by
  unfold astar_search at h
  rcases hloop : astarLoop Mt Ct cap goal fuel (astarInit Mt Ct start) with ⟨stf, res⟩
  have h2 : astarLoop Mt Ct cap goal fuel (astarInit Mt Ct start) =
      (stf, some (some path, n)) := by
    rw [hloop] at h ⊢
    exact Prod.ext rfl h
  obtain ⟨hn, hp⟩ := astarLoop_sound fuel _ stf (some path) n
    (goodCore_init Mt Ct cap start) h2
  obtain ⟨hh, hl, hc, _⟩ := hp path rfl
  exact ⟨hh, hl, hc⟩

theorem astar_path_spec_witness :
    astar_search 2 2 (2, 2, 0, 0, Boat.left) (0, 0, 2, 2, Boat.right) 2 100 =
      some (some [(2, 2, 0, 0, Boat.left), (1, 1, 1, 1, Boat.right),
        (2, 1, 0, 1, Boat.left), (0, 1, 2, 1, Boat.right),
        (0, 2, 2, 0, Boat.left), (0, 0, 2, 2, Boat.right)], 10) ∧
    ([(2, 2, 0, 0, Boat.left), (1, 1, 1, 1, Boat.right),
        (2, 1, 0, 1, Boat.left), (0, 1, 2, 1, Boat.right),
        (0, 2, 2, 0, Boat.left), (0, 0, 2, 2, Boat.right)] : List MCState).head? =
      some (2, 2, 0, 0, Boat.left) ∧
    ([(2, 2, 0, 0, Boat.left), (1, 1, 1, 1, Boat.right),
        (2, 1, 0, 1, Boat.left), (0, 1, 2, 1, Boat.right),
        (0, 2, 2, 0, Boat.left), (0, 0, 2, 2, Boat.right)] : List MCState).getLast? =
      some (0, 0, 2, 2, Boat.right) ∧
    List.Chain' (fun s t => t ∈ get_next_states s 2 2 2)
      [(2, 2, 0, 0, Boat.left), (1, 1, 1, 1, Boat.right),
        (2, 1, 0, 1, Boat.left), (0, 1, 2, 1, Boat.right),
        (0, 2, 2, 0, Boat.left), (0, 0, 2, 2, Boat.right)] := by
  refine ⟨by decide, ?_⟩
  have := astar_path_spec 2 2 2 (2, 2, 0, 0, Boat.left) (0, 0, 2, 2, Boat.right) 100
    [(2, 2, 0, 0, Boat.left), (1, 1, 1, 1, Boat.right),
      (2, 1, 0, 1, Boat.left), (0, 1, 2, 1, Boat.right),
      (0, 2, 2, 0, Boat.left), (0, 0, 2, 2, Boat.right)] 10 (by decide)
  exact this

/-- C9: for every completed search, the `states_generated` count is at
least the length of the returned path when a path is found, and at
least 1 in every case, in particular when no solution exists. -/
theorem astar_generated_count (Mt Ct cap : Int) (start goal : MCState) (fuel : Nat)
    (r : Option (List MCState)) (n : Nat)
    (h : astar_search Mt Ct start goal cap fuel = some (r, n)) :
    (∀ path, r = some path → path.length ≤ n) ∧ 1 ≤ n := by
  unfold astar_search at h
  rcases hloop : astarLoop Mt Ct cap goal fuel (astarInit Mt Ct start) with ⟨stf, res⟩
  have h2 : astarLoop Mt Ct cap goal fuel (astarInit Mt Ct start) = (stf, some (r, n)) := by
    rw [hloop] at h ⊢
    exact Prod.ext rfl h
  obtain ⟨hn, hp⟩ := astarLoop_sound fuel _ stf r n (goodCore_init Mt Ct cap start) h2
  exact ⟨fun path hpath => (hp path hpath).2.2.2, hn⟩

theorem astar_generated_count_witness :
    astar_search 2 2 (2, 2, 0, 0, Boat.left) (0, 0, 2, 2, Boat.right) 2 100 =
      some (some [(2, 2, 0, 0, Boat.left), (1, 1, 1, 1, Boat.right),
        (2, 1, 0, 1, Boat.left), (0, 1, 2, 1, Boat.right),
        (0, 2, 2, 0, Boat.left), (0, 0, 2, 2, Boat.right)], 10) ∧
    ([(2, 2, 0, 0, Boat.left), (1, 1, 1, 1, Boat.right),
        (2, 1, 0, 1, Boat.left), (0, 1, 2, 1, Boat.right),
        (0, 2, 2, 0, Boat.left), (0, 0, 2, 2, Boat.right)] : List MCState).length ≤ 10 ∧
    1 ≤ 10 := by
  refine ⟨by decide, ?_, ?_⟩
  · exact (astar_generated_count 2 2 2 (2, 2, 0, 0, Boat.left) (0, 0, 2, 2, Boat.right) 100
      (some [(2, 2, 0, 0, Boat.left), (1, 1, 1, 1, Boat.right),
        (2, 1, 0, 1, Boat.left), (0, 1, 2, 1, Boat.right),
        (0, 2, 2, 0, Boat.left), (0, 0, 2, 2, Boat.right)]) 10 (by decide)).1 _ rfl
  · exact (astar_generated_count 2 2 2 (2, 2, 0, 0, Boat.left) (0, 0, 2, 2, Boat.right) 100
      (some [(2, 2, 0, 0, Boat.left), (1, 1, 1, 1, Boat.right),
        (2, 1, 0, 1, Boat.left), (0, 1, 2, 1, Boat.right),
        (0, 2, 2, 0, Boat.left), (0, 0, 2, 2, Boat.right)]) 10 (by decide)).2

theorem chain_head_property {Mt Ct cap : Int} {Q : MCState → Prop}
    (hstep : ∀ x y, Q x → y ∈ get_next_states x Mt Ct cap → Q y) :
    ∀ (path : List MCState),
      List.Chain' (fun a b => b ∈ get_next_states a Mt Ct cap) path →
      ∀ a, path.head? = some a → Q a → ∀ s ∈ path, Q s
  | [] => by
    intro _ a _ _ s hs
    cases hs
  | [x] => by
    intro _ a ha hQ s hs
    obtain rfl : x = a := by simpa using ha
    obtain rfl : s = x := by simpa using hs
    exact hQ
  | x :: y :: rest => by
    intro hc a ha hQ s hs
    obtain rfl : x = a := by simpa using ha
    rw [List.chain'_cons] at hc
    obtain ⟨hxy, hc'⟩ := hc
    rcases List.mem_cons.mp hs with rfl | hs'
    · exact hQ
    · exact chain_head_property hstep (y :: rest) hc' y rfl (hstep x y hQ hxy) s hs'

/-- C10: if the start state passes `is_valid_state`, then every state of
a returned path passes it as well, and every path state preserves the
totals `M_left + M_right` and `C_left + C_right` of the start state. -/
theorem astar_path_invariants (Mt Ct cap : Int) (start goal : MCState) (fuel : Nat)
    (path : List MCState) (n : Nat)
    (h : astar_search Mt Ct start goal cap fuel = some (some path, n))
    (hstart : validState start Mt Ct = true) :
    ∀ s ∈ path, validState s Mt Ct = true ∧ msum s = msum start ∧ csum s = csum start := by
  unfold astar_search at h
  rcases hloop : astarLoop Mt Ct cap goal fuel (astarInit Mt Ct start) with ⟨stf, res⟩
  have h2 : astarLoop Mt Ct cap goal fuel (astarInit Mt Ct start) =
      (stf, some (some path, n)) := by
    rw [hloop] at h ⊢
    exact Prod.ext rfl h
  obtain ⟨hn, hp⟩ := astarLoop_sound fuel _ stf (some path) n
    (goodCore_init Mt Ct cap start) h2
  obtain ⟨hh, hl, hc, _⟩ := hp path rfl
  refine chain_head_property ?_ path hc start hh ⟨hstart, rfl, rfl⟩
  intro x y hQ hy
  obtain ⟨hms, hcs⟩ := next_state_sums hy
  exact ⟨next_state_valid hy, hms.trans hQ.2.1, hcs.trans hQ.2.2⟩

theorem astar_path_invariants_witness :
    (astar_search 2 2 (2, 2, 0, 0, Boat.left) (0, 0, 2, 2, Boat.right) 2 100 =
      some (some [(2, 2, 0, 0, Boat.left), (1, 1, 1, 1, Boat.right),
        (2, 1, 0, 1, Boat.left), (0, 1, 2, 1, Boat.right),
        (0, 2, 2, 0, Boat.left), (0, 0, 2, 2, Boat.right)], 10) ∧
      validState (2, 2, 0, 0, Boat.left) 2 2 = true ∧
      ((1, 1, 1, 1, Boat.right) : MCState) ∈
        ([(2, 2, 0, 0, Boat.left), (1, 1, 1, 1, Boat.right),
          (2, 1, 0, 1, Boat.left), (0, 1, 2, 1, Boat.right),
          (0, 2, 2, 0, Boat.left), (0, 0, 2, 2, Boat.right)] : List MCState)) ∧
    (validState (1, 1, 1, 1, Boat.right) 2 2 = true ∧
      msum (1, 1, 1, 1, Boat.right) = msum (2, 2, 0, 0, Boat.left) ∧
      csum (1, 1, 1, 1, Boat.right) = csum (2, 2, 0, 0, Boat.left)) := by
  refine ⟨⟨by decide, by decide, by decide⟩, ?_⟩
  exact astar_path_invariants 2 2 2 (2, 2, 0, 0, Boat.left) (0, 0, 2, 2, Boat.right) 100
    [(2, 2, 0, 0, Boat.left), (1, 1, 1, 1, Boat.right),
      (2, 1, 0, 1, Boat.left), (0, 1, 2, 1, Boat.right),
      (0, 2, 2, 0, Boat.left), (0, 0, 2, 2, Boat.right)] 10 (by decide) (by decide)
    (1, 1, 1, 1, Boat.right) (by decide)

/-! ## Frontier pop order (claim C6) -/

theorem entryLt_asymm {a b : Entry} (h : entryLt a b = true) : entryLt b a = false := by
  rcases a with ⟨fa, ga, s1, s2, s3, s4, ba⟩
  rcases b with ⟨fb, gb, t1, t2, t3, t4, bb⟩
  simp only [entryLt, stateLt, boatRank, Bool.or_eq_true, Bool.and_eq_true,
    decide_eq_true_eq] at h
  rw [Bool.eq_false_iff]
  simp only [ne_eq, entryLt, stateLt, boatRank, Bool.or_eq_true, Bool.and_eq_true,
    decide_eq_true_eq]
  cases ba <;> cases bb <;> simp_all <;> omega

theorem entryLt_le_trans {e x y : Entry} (h1 : entryLt e x = true)
    (h2 : entryLt y x = false) : entryLt y e = false := by
  rcases e with ⟨fe, ge, e1, e2, e3, e4, be⟩
  rcases x with ⟨fx, gx, x1, x2, x3, x4, bx⟩
  rcases y with ⟨fy, gy, y1, y2, y3, y4, by'⟩
  simp only [entryLt, stateLt, boatRank, Bool.or_eq_true, Bool.and_eq_true,
    decide_eq_true_eq] at h1
  rw [Bool.eq_false_iff] at h2 ⊢
  simp only [ne_eq, entryLt, stateLt, boatRank, Bool.or_eq_true, Bool.and_eq_true,
    decide_eq_true_eq] at h2 ⊢
  cases be <;> cases bx <;> cases by' <;> simp_all <;> omega

theorem entryLt_false_f_le {e y : Entry} (h : entryLt y e = false) : e.1 ≤ y.1 := by
  rcases e with ⟨fe, ge, se⟩
  rcases y with ⟨fy, gy, sy⟩
  rw [Bool.eq_false_iff] at h
  simp only [ne_eq, entryLt, Bool.or_eq_true, Bool.and_eq_true, decide_eq_true_eq] at h
  simp only []
  omega

/-- The heap list is sorted: no later entry is smaller than an earlier
one in Python's tuple order. -/
def heapSorted (l : List Entry) : Prop :=
  l.Pairwise (fun a b => entryLt b a = false)

theorem heapSorted_insert {e : Entry} : ∀ {l : List Entry},
    heapSorted l → heapSorted (heapInsert e l)
  | [] => by
    intro _
    simp [heapSorted, heapInsert]
  | x :: xs => by
    intro h
    rw [heapSorted, List.pairwise_cons] at h
    obtain ⟨hx, hxs⟩ := h
    simp only [heapInsert]
    by_cases hlt : entryLt e x = true
    · rw [if_pos hlt]
      rw [heapSorted, List.pairwise_cons]
      refine ⟨?_, List.pairwise_cons.mpr ⟨hx, hxs⟩⟩
      intro y hy
      rcases List.mem_cons.mp hy with rfl | hy'
      · exact entryLt_asymm hlt
      · exact entryLt_le_trans hlt (hx y hy')
    · rw [if_neg hlt]
      rw [heapSorted, List.pairwise_cons]
      refine ⟨?_, heapSorted_insert hxs⟩
      intro y hy
      rcases mem_heapInsert.mp hy with rfl | hy'
      · exact Bool.eq_false_iff.mpr hlt
      · exact hx y hy'

theorem poppedFs_append (l1 l2 : List HeapEvent) :
    poppedFs (l1 ++ l2) = poppedFs l1 ++ poppedFs l2 := by
  simp [poppedFs, List.filterMap_append]

theorem astarExpand_heapOK {Mt Ct cap : Int} {current : MCState} {g fcur : Int}
    (hcap : cap ≤ 2) (hf : fcur = g + heuristic current Mt Ct) :
    ∀ (l : List MCState) (st : AState),
      (∀ x ∈ l, x ∈ get_next_states current Mt Ct cap) →
      heapSorted st.heap →
      (∀ e ∈ st.heap, fcur ≤ e.1 ∧ e.1 = e.2.1 + heuristic e.2.2 Mt Ct) →
      heapSorted (astarExpand Mt Ct g current l st).heap ∧
      (∀ e ∈ (astarExpand Mt Ct g current l st).heap,
        fcur ≤ e.1 ∧ e.1 = e.2.1 + heuristic e.2.2 Mt Ct) ∧
      ∃ tail, (astarExpand Mt Ct g current l st).events = st.events ++ tail ∧
        poppedFs tail = []
  | [], st => by
    intro _ hsort hok
    exact ⟨hsort, hok, [], by simp [astarExpand], rfl⟩
  | nxt :: rest, st => by
    intro hl hsort hok
    have hstep : ∀ st' : AState,
        st'.heap = heapInsert (g + 1 + heuristic nxt Mt Ct, g + 1, nxt) st.heap →
        st'.events = st.events ++ [HeapEvent.push (g + 1 + heuristic nxt Mt Ct, g + 1, nxt)] →
        heapSorted st'.heap ∧
        (∀ e ∈ st'.heap, fcur ≤ e.1 ∧ e.1 = e.2.1 + heuristic e.2.2 Mt Ct) := by
      intro st' hh he
      constructor
      · rw [hh]
        exact heapSorted_insert hsort
      · intro e hee
        rw [hh] at hee
        rcases mem_heapInsert.mp hee with rfl | he'
        · constructor
          · have hcons := heuristic_consistent hcap (hl nxt (List.mem_cons_self nxt rest))
            simp only []
            omega
          · rfl
        · exact hok e he'
    simp only [astarExpand]
    rcases hlook : lookupA st.gCost nxt with _ | old
    · simp only [hlook]
      rw [if_pos trivial]
      obtain ⟨hs', hok'⟩ := hstep
        { heap := heapInsert (g + 1 + heuristic nxt Mt Ct, g + 1, nxt) st.heap
          gCost := (nxt, g + 1) :: st.gCost
          parent := (nxt, some current) :: st.parent
          visited := st.visited
          numGenerated := st.numGenerated + 1
          events := st.events ++ [HeapEvent.push (g + 1 + heuristic nxt Mt Ct, g + 1, nxt)] }
        rfl rfl
      obtain ⟨hs2, hok2, tail, hev, hpop⟩ := astarExpand_heapOK hcap hf rest _
        (fun x hx => hl x (List.mem_cons_of_mem _ hx)) hs' hok'
      refine ⟨hs2, hok2,
        [HeapEvent.push (g + 1 + heuristic nxt Mt Ct, g + 1, nxt)] ++ tail, ?_, ?_⟩
      · rw [hev]
        simp [List.append_assoc]
      · rw [poppedFs_append, hpop]
        rfl
    · simp only [hlook]
      by_cases hlt : g + 1 < old
      · rw [if_pos (by simpa using hlt)]
        obtain ⟨hs', hok'⟩ := hstep
          { heap := heapInsert (g + 1 + heuristic nxt Mt Ct, g + 1, nxt) st.heap
            gCost := (nxt, g + 1) :: st.gCost
            parent := (nxt, some current) :: st.parent
            visited := st.visited
            numGenerated := st.numGenerated + 1
            events := st.events ++ [HeapEvent.push (g + 1 + heuristic nxt Mt Ct, g + 1, nxt)] }
          rfl rfl
        obtain ⟨hs2, hok2, tail, hev, hpop⟩ := astarExpand_heapOK hcap hf rest _
          (fun x hx => hl x (List.mem_cons_of_mem _ hx)) hs' hok'
        refine ⟨hs2, hok2,
          [HeapEvent.push (g + 1 + heuristic nxt Mt Ct, g + 1, nxt)] ++ tail, ?_, ?_⟩
        · rw [hev]
          simp [List.append_assoc]
        · rw [poppedFs_append, hpop]
          rfl
      · rw [if_neg (by simpa using hlt)]
        exact astarExpand_heapOK hcap hf rest st
          (fun x hx => hl x (List.mem_cons_of_mem _ hx)) hsort hok

theorem astarLoop_popFs {Mt Ct cap : Int} {goal : MCState} (hcap : cap ≤ 2) :
    ∀ (fuel : Nat) (st : AState) (b : Int),
      heapSorted st.heap →
      (∀ e ∈ st.heap, b ≤ e.1 ∧ e.1 = e.2.1 + heuristic e.2.2 Mt Ct) →
      ∃ tail, (astarLoop Mt Ct cap goal fuel st).1.events = st.events ++ tail ∧
        List.Chain' (fun x y => x ≤ y) (b :: poppedFs tail)
  | 0, st, b => by
    intro _ _
    exact ⟨[], by simp [astarLoop], List.chain'_singleton b⟩
  | fuel + 1, st, b => by
    intro hsort hok
    rcases hheap : st.heap with _ | ⟨e, rest⟩
    · exact ⟨[], by simp [astarLoop, hheap], List.chain'_singleton b⟩
    · rw [hheap] at hsort
      rw [heapSorted, List.pairwise_cons] at hsort
      obtain ⟨hx, hsort'⟩ := hsort
      obtain ⟨hbe, hfe⟩ := hok e (by rw [hheap]; exact List.mem_cons_self e rest)
      have hrest : ∀ e' ∈ rest, e.1 ≤ e'.1 ∧ e'.1 = e'.2.1 + heuristic e'.2.2 Mt Ct :=
        fun e' he' => ⟨entryLt_false_f_le (hx e' he'),
          (hok e' (by rw [hheap]; exact List.mem_cons_of_mem _ he')).2⟩
      simp only [astarLoop, hheap]
      by_cases hvis : e.2.2 ∈ st.visited
      · rw [if_pos hvis]
        obtain ⟨tail', hev, hchain⟩ := astarLoop_popFs hcap fuel
          { heap := rest, gCost := st.gCost, parent := st.parent, visited := st.visited,
            numGenerated := st.numGenerated,
            events := st.events ++ [HeapEvent.pop e] } e.1 hsort' hrest
        refine ⟨[HeapEvent.pop e] ++ tail', ?_, ?_⟩
        · rw [hev]
          simp [List.append_assoc]
        · rw [poppedFs_append]
          refine List.chain'_cons.mpr ⟨hbe, ?_⟩
          exact hchain
      · rw [if_neg hvis]
        by_cases hgoal : e.2.2 = goal
        · rw [if_pos hgoal]
          rcases reconstructPath st.parent (st.parent.length + 1) e.2.2 with _ | path₀ <;>
          · refine ⟨[HeapEvent.pop e], rfl, ?_⟩
            exact List.chain'_cons.mpr ⟨hbe, List.chain'_singleton _⟩
        · rw [if_neg hgoal]
          obtain ⟨hsorte, hoke, tail₀, hev₀, hpop₀⟩ := astarExpand_heapOK hcap hfe
            (get_next_states e.2.2 Mt Ct cap)
            { heap := rest, gCost := st.gCost, parent := st.parent,
              visited := e.2.2 :: st.visited, numGenerated := st.numGenerated,
              events := st.events ++ [HeapEvent.pop e] }
            (fun x hx => hx) hsort' hrest
          obtain ⟨tail', hev', hchain'⟩ := astarLoop_popFs hcap fuel _ e.1 hsorte hoke
          refine ⟨[HeapEvent.pop e] ++ tail₀ ++ tail', ?_, ?_⟩
          · rw [hev', hev₀]
            simp [List.append_assoc]
          · rw [poppedFs_append, poppedFs_append, hpop₀]
            refine List.chain'_cons.mpr ⟨hbe, ?_⟩
            exact hchain'

/-- C6 counterexample.  First, with boat capacity 4 on the
`M_total = C_total = 2` instance the frontier pops `f = 2` and then
`f = 1`: the popped `f` values are not nondecreasing.  Second, in the
classic capacity-2 `M_total = C_total = 3` run two entries with equal
`f = 3` and equal `g = 1` are pushed — `(3, 1, (3,1,0,2,'right'))`
before `(3, 1, (2,2,1,1,'right'))` — yet the later-pushed entry is
popped first (its state tuple is smaller): ties are not broken by
insertion order. -/
theorem astar_pop_order_counterexample :
    (poppedFs (astar_events 2 2 (2, 2, 0, 0, Boat.left) (0, 0, 2, 2, Boat.right) 4 100) =
        [2, 1] ∧
      ¬ List.Chain' (fun x y => x ≤ y) [(2 : Int), 1]) ∧
    ((astar_events 3 3 (3, 3, 0, 0, Boat.left) (0, 0, 3, 3, Boat.right) 2 200).get? 3 =
        some (HeapEvent.push (3, 1, (3, 1, 0, 2, Boat.right))) ∧
      (astar_events 3 3 (3, 3, 0, 0, Boat.left) (0, 0, 3, 3, Boat.right) 2 200).get? 4 =
        some (HeapEvent.push (3, 1, (2, 2, 1, 1, Boat.right))) ∧
      (astar_events 3 3 (3, 3, 0, 0, Boat.left) (0, 0, 3, 3, Boat.right) 2 200).get? 5 =
        some (HeapEvent.pop (3, 1, (2, 2, 1, 1, Boat.right))) ∧
      (astar_events 3 3 (3, 3, 0, 0, Boat.left) (0, 0, 3, 3, Boat.right) 2 200).get? 7 =
        some (HeapEvent.pop (3, 1, (3, 1, 0, 2, Boat.right)))) := by
  refine ⟨⟨by decide, ?_⟩, by decide, by decide, by decide, by decide⟩
  intro h
  exact absurd (List.chain'_cons.mp h).1 (by norm_num)

/-- C6 (amended): whenever the boat capacity is at most 2 (in
particular for the default capacity 2, where the heuristic is
consistent), the A* frontier pops entries in nondecreasing order of
`f = g + h`.  In general `f` may decrease, and ties on equal `f` are
resolved by the lexicographic order of the remaining tuple components
`(g, state)` — as `heapq` compares whole tuples — not by insertion
order. -/
theorem astar_pop_order (Mt Ct cap : Int) (start goal : MCState) (fuel : Nat)
    (hcap : cap ≤ 2) :
    List.Chain' (fun x y => x ≤ y)
      (poppedFs (astar_events Mt Ct start goal cap fuel)) := by
  have hsorted : heapSorted (astarInit Mt Ct start).heap := by
    simp [heapSorted, astarInit]
  have hok : ∀ e ∈ (astarInit Mt Ct start).heap,
      heuristic start Mt Ct ≤ e.1 ∧ e.1 = e.2.1 + heuristic e.2.2 Mt Ct := by
    intro e he
    obtain rfl : e = (heuristic start Mt Ct, 0, start) := by simpa [astarInit] using he
    exact ⟨le_refl _, by simp⟩
  obtain ⟨tail, hev, hchain⟩ := astarLoop_popFs hcap fuel (astarInit Mt Ct start)
    (heuristic start Mt Ct) hsorted hok
  unfold astar_events
  rw [hev]
  have hpf : poppedFs ((astarInit Mt Ct start).events ++ tail) = poppedFs tail := by
    rw [poppedFs_append]
    simp [astarInit, poppedFs]
  rw [hpf]
  exact hchain.tail

theorem astar_pop_order_witness :
    (1 : Int) ≤ 2 ∧
    List.Chain' (fun x y => x ≤ y)
      (poppedFs (astar_events 0 2 (0, 2, 0, 0, Boat.left) (0, 0, 0, 2, Boat.right) 1 100)) :=
  ⟨by decide,
    astar_pop_order 0 2 1 (0, 2, 0, 0, Boat.left) (0, 0, 0, 2, Boat.right) 100 (by decide)⟩
